import Mathlib

/-!
# generate-words: fetch, filter and bucket pipeline

A shallow embedding of `packages/generate-words.go` and the properties of its functions
`difficulty`, `downloadList`, `loadSetFromURLs` and `main`.

* Go strings are modelled by Lean `String`, a sequence of Unicode scalar values, that is, a
  well-formed UTF-8 text.  Go's `len` counts bytes and is modelled by the UTF-8 byte count
  `len`.  Every word the program puts into a set is a result of `strings.ToLower`.
* Go sets `map[string]struct{}` are modelled by `Finset String`.  A `range` loop over a map
  visits every key exactly once in an unspecified order: the loop body is run over a list
  that enumerates the set (`IsIteration`), and the properties are proved for every such
  list.
* The library calls are modelled after their documentation: `strings.TrimSpace`,
  `strings.ToLower` (the Unicode case table for runes above ASCII is a parameter),
  `bufio.Scanner` with `bufio.ScanLines` and the default buffer, `http.Get` by its result.
* The side effects of `main` are modelled by the list of its actions in program order, the
  results of the calls to the outside being given by a `World`.
-/

namespace GenerateWords

/-! ## Strings -/

/-- Number of bytes of the UTF-8 encoding of one rune (Go `utf8.RuneLen`). -/
def runeLen (c : Char) : Nat :=
  if c.toNat < 0x80 then 1
  else if c.toNat < 0x800 then 2
  else if c.toNat < 0x10000 then 3
  else 4

/-- Byte length of a sequence of runes. -/
def byteLen : List Char → Nat
  | [] => 0
  | c :: cs => runeLen c + byteLen cs

/-- Go `len(s)` for a string: the number of bytes. -/
def len (s : String) : Nat := byteLen s.data

/-- The byte class `[a-z]`. -/
def isLowerAZ (c : Char) : Bool := decide (97 ≤ c.toNat) && decide (c.toNat ≤ 122)

/-- The compiled pattern `alpha = ^[a-z]+$` applied with `MatchString`: the whole
text is one or more letters of `a-z`. -/
def alphaMatch (w : String) : Bool :=
  match w.data with
  | [] => false
  | c :: cs => isLowerAZ c && cs.all isLowerAZ

/-! ## difficulty -/

/-- Source function `difficulty`. -/
def difficulty (word : String) : String :=
  let l := len word
  if l ≥ 4 ∧ l ≤ 5 then "easy"
  else if l = 6 then "medium"
  else if l ≥ 7 ∧ l ≤ 8 then "hard"
  else ""

/-! ## Library functions used by downloadList -/

/-- Go `unicode.IsSpace`: the Unicode White_Space runes. -/
def isSpace (c : Char) : Bool :=
  let n := c.toNat
  decide (9 ≤ n ∧ n ≤ 13) || n == 0x20 || n == 0x85 || n == 0xA0 || n == 0x1680
    || decide (0x2000 ≤ n ∧ n ≤ 0x200A) || n == 0x2028 || n == 0x2029 || n == 0x202F
    || n == 0x205F || n == 0x3000

/-- Go `strings.TrimSpace`: leading and trailing white space removed. -/
def trimSpace (s : String) : String :=
  ⟨(s.data.dropWhile isSpace).rdropWhile isSpace⟩

/-- The ASCII letters `A-Z`. -/
def isUpperAZ (c : Char) : Bool := decide (65 ≤ c.toNat) && decide (c.toNat ≤ 90)

/-- Go `unicode.ToLower` on one rune.  The ASCII branch is the library's code; a rune above
ASCII is looked up in the Unicode case table, which is the parameter `caseTable`. -/
def toLowerRune (caseTable : Char → Char) (r : Char) : Char :=
  if r.toNat ≤ 0x7F then
    if isUpperAZ r then Char.ofNat (r.toNat + 32) else r
  else caseTable r

/-- Go `strings.ToLower`: every rune mapped to its lower case. -/
def toLower (caseTable : Char → Char) (s : String) : String :=
  ⟨s.data.map (toLowerRune caseTable)⟩

/-- Go `bufio.MaxScanTokenSize`, the size of the scanner's buffer: a line and its
terminating newline have to fit into it. -/
def maxScanTokenSize : Nat := 64 * 1024

/-- The end of `bufio.ScanLines`: one trailing carriage return is dropped. -/
def dropCR (line : List Char) : List Char :=
  if line.getLast? = some (Char.ofNat 13) then line.dropLast else line

/-- The tokens that successive calls of `scanner.Scan()` deliver for a body, with the
default split function `bufio.ScanLines` and the default buffer: `cur` holds the runes read
since the last newline.  A token ends at a newline or at the end of the input (a final
empty line is no token).  A line that does not fit into the buffer makes `Scan` return
false for good (`bufio.ErrTooLong`), so no later token is delivered.  A line with its
newline fits when the line has fewer than `maxScanTokenSize` bytes; a last line without
newline of exactly `maxScanTokenSize` bytes is taken as not fitting (the library delivers
it only when the reader reports the end of the input together with the last bytes). -/
def scanTokens : List Char → List Char → List (List Char)
  | [], cur =>
      if cur = [] then []
      else if byteLen cur < maxScanTokenSize then [dropCR cur]
      else []
  | c :: rest, cur =>
      if c = Char.ofNat 10 then
        if byteLen cur < maxScanTokenSize then dropCR cur :: scanTokens rest []
        else []
      else scanTokens rest (cur ++ [c])

/-! ## downloadList and loadSetFromURLs -/

/-- What `http.Get` returns: an error, or a response with its status code and body. -/
inductive HttpResult where
  | transportError : HttpResult
  | response (statusCode : Int) (body : String) : HttpResult
deriving DecidableEq, Repr

/-- The errors of `downloadList`: the error of `http.Get`, or `bad status code: %d`. -/
inductive FetchError where
  | transport : FetchError
  | badStatus (statusCode : Int) : FetchError
deriving DecidableEq, Repr

deriving instance DecidableEq for Except

/-- The loop `for scanner.Scan()` of downloadList (lines 55-60) over the tokens the scanner
delivers, appending to `words`. -/
def scanLoop (caseTable : Char → Char) : List (List Char) → List String → List String
  | [], words => words
  | text :: rest, words =>
      let w := toLower caseTable (trimSpace ⟨text⟩)
      if w ≠ "" then scanLoop caseTable rest (words ++ [w])
      else scanLoop caseTable rest words

/-- Source function `downloadList`, against the network `httpGet`. -/
def downloadList (caseTable : Char → Char) (httpGet : String → HttpResult) (url : String) :
    Except FetchError (List String) :=
  match httpGet url with
  | .transportError => .error .transport
  | .response statusCode body =>
      if statusCode ≠ 200 then .error (.badStatus statusCode)
      else .ok (scanLoop caseTable (scanTokens body.data []) [])

/-- The inner loop of loadSetFromURLs (lines 72-74). -/
def insertAll : List String → Finset String → Finset String
  | [], set => set
  | w :: rest, set => insertAll rest (insert w set)

/-- The outer loop of loadSetFromURLs (lines 66-75); `fetch` is downloadList against the
network. -/
def loadLoop (fetch : String → Except FetchError (List String)) :
    List String → Finset String → Finset String
  | [], set => set
  | url :: rest, set =>
      match fetch url with
      | .error _ => loadLoop fetch rest set
      | .ok list => loadLoop fetch rest (insertAll list set)

/-- Source function `loadSetFromURLs`. -/
def loadSetFromURLs (fetch : String → Except FetchError (List String)) (urls : List String) :
    Finset String :=
  loadLoop fetch urls ∅

/-! ## The specification's wording of the fetcher and the set builder -/

/-- The specification's "splits body into lines": the pieces between newlines. -/
def specLines (body : List Char) : List (List Char) := body.splitOn (Char.ofNat 10)

/-- The specification's normalisation of a sequence of lines: each line is replaced by its
lower-cased, white-space-trimmed form and the lines that become empty are dropped; order
and duplicates are kept. -/
def specNormalize (caseTable : Char → Char) (lines : List (List Char)) : List String :=
  (lines.map (fun line => toLower caseTable (trimSpace ⟨line⟩))).filter (fun w => decide (w ≠ ""))

/-- The specification's set builder: all lines of the locations whose fetch succeeded, in
order, before deduplication. -/
def specSuccessfulLines (fetch : String → Except FetchError (List String)) :
    List String → List String
  | [] => []
  | url :: rest =>
      match fetch url with
      | .error _ => specSuccessfulLines fetch rest
      | .ok list => list ++ specSuccessfulLines fetch rest

/-- Fetch outcomes for a witness: location "b" fails, every other location delivers the
lines cat, its own name, cat. -/
def exampleFetch : String → Except FetchError (List String) :=
  fun url => if url = "b" then .error .transport else .ok ["cat", url, "cat"]

/-- Fetch outcomes for a witness: every location fails. -/
def failingFetch : String → Except FetchError (List String) :=
  fun _ => .error .transport

/-- A body with a line of 65536 letters followed by the line "piano". -/
def longLineBody : String :=
  ⟨List.replicate 65536 (Char.ofNat 97) ++ Char.ofNat 10 :: "piano\n".data⟩

/-! ## Sets and the filter-and-bucket step of main -/

/-- A list is a possible visiting order of a `range` loop over the set `s`: every key is
visited, exactly once. -/
def IsIteration (s : Finset String) (order : List String) : Prop :=
  order.Nodup ∧ order.toFinset = s

instance (s : Finset String) (order : List String) : Decidable (IsIteration s order) := by
  unfold IsIteration; infer_instance

/-- The loop `for w := range nounSet` of main (lines 91-102), run over the visiting order
`nounOrder`, updating the map `finalSet`. -/
def filterLoop (names freqWords : Finset String) : List String → Finset String → Finset String
  | [], finalSet => finalSet
  | w :: rest, finalSet =>
      if len w < 4 ∨ alphaMatch w = false then filterLoop names freqWords rest finalSet
      else if w ∈ names then filterLoop names freqWords rest finalSet
      else if ¬ w ∈ freqWords then filterLoop names freqWords rest finalSet
      else filterLoop names freqWords rest (insert w finalSet)

/-- The filtered set: `finalSet` starts empty. -/
def buildFinalSet (names freqWords : Finset String) (nounOrder : List String) : Finset String :=
  filterLoop names freqWords nounOrder ∅

/-- Go `map[string][]string`, as an association list with distinct keys. -/
abbrev BucketMap := List (String × List String)

/-- Map read `m[k]`: the zero value (an empty slice) when the key is absent. -/
def BucketMap.get : BucketMap → String → List String
  | [], _ => []
  | (k', v) :: rest, k => if k' = k then v else BucketMap.get rest k

/-- Map write `m[k] = v`: replaces the value of an existing key, adds the key otherwise. -/
def BucketMap.set : BucketMap → String → List String → BucketMap
  | [], k, v => [(k, v)]
  | (k', v') :: rest, k, v => if k' = k then (k, v) :: rest else (k', v') :: BucketMap.set rest k v

/-- Keys of the map. -/
def BucketMap.keys (m : BucketMap) : List String := m.map Prod.fst

/-- The literal `buckets` of main (lines 105-109). -/
def initBuckets : BucketMap := [("easy", []), ("medium", []), ("hard", [])]

/-- The loop `for w := range finalSet` of main (lines 111-116), run over the visiting
order `finalOrder`. -/
def bucketLoop : List String → BucketMap → BucketMap
  | [], buckets => buckets
  | w :: rest, buckets =>
      let diff := difficulty w
      if diff ≠ "" then bucketLoop rest (buckets.set diff (buckets.get diff ++ [w]))
      else bucketLoop rest buckets

/-- The buckets main builds (lines 105-116), `finalOrder` being the order in which the
loop visits `finalSet`. -/
def fillBuckets (finalOrder : List String) : BucketMap := bucketLoop finalOrder initBuckets

/-- One run of the filter-and-bucket step of main (lines 89-116): the buckets `b` result
from some visiting order `nounOrder` of `nouns` in the first loop and some visiting order
`finalOrder` of the filtered set in the second. -/
def BucketRun (nouns names freqWords : Finset String) (b : BucketMap) : Prop :=
  ∃ nounOrder finalOrder, IsIteration nouns nounOrder ∧
    IsIteration (buildFinalSet names freqWords nounOrder) finalOrder ∧
    b = fillBuckets finalOrder

/-! ## The example scenario of the specification -/

/-- The set `nouns` of the example scenario. -/
def exampleNouns : Finset String := {"cat", "dog", "piano", "umbrella", "xz"}

/-- The set `names` of the example scenario. -/
def exampleNames : Finset String := {"dog"}

/-- The set `frequency` of the example scenario. -/
def exampleFrequency : Finset String := {"cat", "piano", "umbrella"}

/-- A set of two words of five letters, to run the step in two visiting orders. -/
def twoEasyWords : Finset String := {"piano", "world"}

/-! ## main -/

/-- The package-level list `nounSources`. -/
def nounSources : List String :=
  ["https://gist.githubusercontent.com/fogleman/7b26877050cac235343d/raw/nouns.txt",
   "https://raw.githubusercontent.com/psobko/Common-English-Nouns/master/common-nouns.txt",
   "https://gist.githubusercontent.com/trag1c/f74b2ab3589bc4ce5706f934616f6195/raw/nouns.txt"]

/-- The package-level variable `nameSource`. -/
def nameSource : String :=
  "https://raw.githubusercontent.com/dominictarr/random-name/master/names.txt"

/-- The package-level variable `freqSource`. -/
def freqSource : String :=
  "https://raw.githubusercontent.com/first20hours/google-10000-english/master/20k.txt"

/-- The package-level variable `outputDir`. -/
def outputDir : String := "./words/en"

/-- The value of `filepath.Join(outputDir, diff+".json")`: the cleaned path drops the
leading `./` of `outputDir`. -/
def filePath (diff : String) : String := "words/en/" ++ diff ++ ".json"

/-- What the program runs against: the Unicode case table, the network, the file system
and the runtime's choice of the visiting order at each of the three `range` loops over a
map.  `mkdirAll` and `writeFile` tell whether the call succeeds. -/
structure World where
  caseTable : Char → Char
  httpGet : String → HttpResult
  mkdirAll : String → Bool
  writeFile : String → List String → Bool
  rangeNounSet : Finset String → List String
  rangeFinalSet : Finset String → List String
  rangeBuckets : BucketMap → List String

/-- The observable actions of a run, in program order, each with the result the world
gave for it. -/
inductive Event where
  | mkdirAll (path : String) (ok : Bool) : Event
  | download (url : String) : Event
  | printDownloadError (url : String) (err : FetchError) : Event
  | writeFile (path : String) (words : List String) (ok : Bool) : Event
  | printWritten (count : Nat) (path : String) : Event
  | printDone (dir : String) : Event
deriving DecidableEq, Repr

/-- How a run ends: main returns, or the process stops on an error. -/
inductive Outcome where
  | completed : Outcome
  | fatal (reason : String) : Outcome
deriving DecidableEq, Repr

/-- A run of the program: what it did and how it ended. -/
structure Run where
  trace : List Event
  outcome : Outcome
deriving DecidableEq, Repr

/-- The actions of one call of loadSetFromURLs: each location is fetched in turn, a failed
fetch is reported and the loop goes on. -/
def loadEvents (fetch : String → Except FetchError (List String)) : List String → List Event
  | [] => []
  | url :: rest =>
      match fetch url with
      | .error err => .download url :: .printDownloadError url err :: loadEvents fetch rest
      | .ok _ => .download url :: loadEvents fetch rest

/-- The loop `for diff, words := range buckets` of main (lines 119-124), run over the
visiting order `tierOrder` of the keys: the results of `json.MarshalIndent` and
`os.WriteFile` are discarded. -/
def writeLoop (writeFile : String → List String → Bool) (buckets : BucketMap) :
    List String → List Event
  | [] => []
  | diff :: rest =>
      let words := buckets.get diff
      .writeFile (filePath diff) words (writeFile (filePath diff) words)
        :: .printWritten words.length (filePath diff) :: writeLoop writeFile buckets rest

/-- The set `names` main loads (line 83). -/
def loadedNames (W : World) : Finset String :=
  loadSetFromURLs (downloadList W.caseTable W.httpGet) [nameSource]

/-- The set `freqWords` main loads (line 84). -/
def loadedFreqWords (W : World) : Finset String :=
  loadSetFromURLs (downloadList W.caseTable W.httpGet) [freqSource]

/-- The set `nounSet` main loads (line 87). -/
def loadedNounSet (W : World) : Finset String :=
  loadSetFromURLs (downloadList W.caseTable W.httpGet) nounSources

/-- The map `finalSet` main builds (lines 90-102). -/
def mainFinalSet (W : World) : Finset String :=
  buildFinalSet (loadedNames W) (loadedFreqWords W) (W.rangeNounSet (loadedNounSet W))

/-- The map `buckets` main builds (lines 105-116). -/
def mainBuckets (W : World) : BucketMap :=
  fillBuckets (W.rangeFinalSet (mainFinalSet W))

/-- Source function `main`: its actions in program order and how it ends.  No result of
`os.MkdirAll`, `json.MarshalIndent` or `os.WriteFile` is looked at, and main has no
statement that stops the process. -/
def main (W : World) : Run :=
  let fetch := downloadList W.caseTable W.httpGet
  { trace :=
      [.mkdirAll outputDir (W.mkdirAll outputDir)]
        ++ loadEvents fetch [nameSource]
        ++ loadEvents fetch [freqSource]
        ++ loadEvents fetch nounSources
        ++ writeLoop W.writeFile (mainBuckets W) (W.rangeBuckets (mainBuckets W))
        ++ [.printDone outputDir]
    outcome := .completed }

/-- The runtime's visiting orders are real ones: each `range` loop of main visits every
key of its map exactly once. -/
def World.RangeOk (W : World) : Prop :=
  IsIteration (loadedNounSet W) (W.rangeNounSet (loadedNounSet W)) ∧
  IsIteration (mainFinalSet W) (W.rangeFinalSet (mainFinalSet W)) ∧
  (W.rangeBuckets (mainBuckets W)).Perm (mainBuckets W).keys

instance (W : World) : Decidable W.RangeOk := by
  unfold World.RangeOk; infer_instance

/-- A world in which the output directory cannot be created and no file can be written:
the name and frequency sources and the first noun source answer with status 200, the other
noun sources are unreachable. -/
def noDirWorld : World where
  caseTable := id
  httpGet := fun url =>
    if url = nameSource then .response 200 "dog\n"
    else if url = freqSource then .response 200 "cat\npiano\numbrella\n"
    else if some url = nounSources.head? then .response 200 "Cat\ndog\n piano\r\numbrella\nxz\n"
    else .transportError
  mkdirAll := fun _ => false
  writeFile := fun _ _ => false
  rangeNounSet := fun set => ["xz", "umbrella", "piano", "dog", "cat"].filter (fun w => w ∈ set)
  rangeFinalSet := fun set => ["umbrella", "piano"].filter (fun w => w ∈ set)
  rangeBuckets := fun buckets => buckets.keys.reverse

/-- The same world with a file system in which the directory can be created. -/
def withDirWorld (W : World) : World :=
  { W with mkdirAll := fun _ => true }

/-! ## Lemmas on strings and difficulty -/

theorem tier_cases (w : String) :
    difficulty w = "easy" ∨ difficulty w = "medium" ∨ difficulty w = "hard" ∨
      difficulty w = "" := by
  unfold difficulty
  simp only []
  split_ifs <;> simp

theorem difficulty_ne_empty_iff (w : String) :
    difficulty w ≠ "" ↔ 4 ≤ len w ∧ len w ≤ 8 := by
  unfold difficulty
  simp only []
  split_ifs with h1 h2 h3
  · exact ⟨fun _ => by omega, fun _ => by decide⟩
  · exact ⟨fun _ => by omega, fun _ => by decide⟩
  · exact ⟨fun _ => by omega, fun _ => by decide⟩
  · constructor
    · intro h; exact absurd rfl h
    · intro h; omega

theorem difficulty_congr_len (w w' : String) (h : len w' = len w) :
    difficulty w' = difficulty w := by
  unfold difficulty
  simp only [h]

theorem runeLen_eq_utf8Size (c : Char) : runeLen c = c.utf8Size := by
  unfold runeLen Char.utf8Size
  simp only [UInt32.le_def, Char.toNat, UInt32.toNat, BitVec.le_def]
  have e1 : ∀ h, (UInt32.ofNatCore 127 h).toBitVec.toNat = 127 := fun _ => rfl
  have e2 : ∀ h, (UInt32.ofNatCore 2047 h).toBitVec.toNat = 2047 := fun _ => rfl
  have e3 : ∀ h, (UInt32.ofNatCore 65535 h).toBitVec.toNat = 65535 := fun _ => rfl
  rw [e1, e2, e3]
  split_ifs <;> first | rfl | omega

theorem byteLen_eq_utf8ByteSize_go (cs : List Char) :
    byteLen cs = String.utf8ByteSize.go cs := by
  induction cs with
  | nil => rfl
  | cons c cs ih =>
    simp only [String.utf8ByteSize.go, byteLen, ih, runeLen_eq_utf8Size]
    omega

/-- The model of Go's `len` is the size in bytes of the UTF-8 encoding of the string. -/
theorem len_eq_utf8ByteSize (s : String) : len s = s.utf8ByteSize := by
  cases s with
  | mk cs => simp only [len, String.utf8ByteSize, byteLen_eq_utf8ByteSize_go]

theorem runeLen_of_isLowerAZ (c : Char) (h : isLowerAZ c = true) : runeLen c = 1 := by
  unfold isLowerAZ at h
  simp only [Bool.and_eq_true, decide_eq_true_eq] at h
  unfold runeLen
  rw [if_pos (by omega)]

theorem byteLen_of_all_lower (cs : List Char) (h : ∀ c ∈ cs, isLowerAZ c = true) :
    byteLen cs = cs.length := by
  induction cs with
  | nil => rfl
  | cons c cs ih =>
    have hc := runeLen_of_isLowerAZ c (h c (List.mem_cons_self _ _))
    have ht := ih (fun d hd => h d (List.mem_cons_of_mem _ hd))
    simp only [byteLen, List.length_cons, hc, ht]
    omega

theorem alphaMatch_iff (w : String) :
    alphaMatch w = true ↔ w.data ≠ [] ∧ ∀ c ∈ w.data, isLowerAZ c = true := by
  unfold alphaMatch
  cases hd : w.data with
  | nil => simp
  | cons c cs => simp [List.all_eq_true]

theorem len_eq_length_of_alphaMatch (w : String) (h : alphaMatch w = true) :
    len w = w.length := by
  have h2 := ((alphaMatch_iff w).1 h).2
  unfold len
  rw [byteLen_of_all_lower _ h2]
  rfl

/-! ## Lemmas on the filter loop -/

theorem mem_filterLoop (names freqWords : Finset String) (order : List String)
    (acc : Finset String) (w : String) :
    w ∈ filterLoop names freqWords order acc ↔
      w ∈ acc ∨ (w ∈ order ∧ 4 ≤ len w ∧ alphaMatch w = true ∧ w ∉ names ∧ w ∈ freqWords) := by
  induction order generalizing acc with
  | nil => simp [filterLoop]
  | cons x rest ih =>
    unfold filterLoop
    split_ifs with h1 h2 h3
    · rw [ih]
      constructor
      · rintro (h | ⟨h, hr⟩)
        · exact Or.inl h
        · exact Or.inr ⟨List.mem_cons_of_mem _ h, hr⟩
      · rintro (h | ⟨h, h4, ha, hr⟩)
        · exact Or.inl h
        · rcases List.mem_cons.1 h with rfl | h
          · exfalso
            rcases h1 with h1 | h1
            · omega
            · rw [ha] at h1; exact Bool.noConfusion h1
          · exact Or.inr ⟨h, h4, ha, hr⟩
    · rw [ih]
      constructor
      · rintro (h | ⟨h, hr⟩)
        · exact Or.inl h
        · exact Or.inr ⟨List.mem_cons_of_mem _ h, hr⟩
      · rintro (h | ⟨h, h4, ha, hn, hf⟩)
        · exact Or.inl h
        · rcases List.mem_cons.1 h with rfl | h
          · exact absurd h2 hn
          · exact Or.inr ⟨h, h4, ha, hn, hf⟩
    · rw [ih, Finset.mem_insert]
      have hx4 : 4 ≤ len x := by
        by_contra hc
        exact h1 (Or.inl (by omega))
      have hxa : alphaMatch x = true := by
        by_contra hc
        exact h1 (Or.inr (by simpa using hc))
      have hxf : x ∈ freqWords := h3
      constructor
      · rintro ((rfl | h) | ⟨h, hr⟩)
        · exact Or.inr ⟨List.mem_cons_self _ _, hx4, hxa, h2, hxf⟩
        · exact Or.inl h
        · exact Or.inr ⟨List.mem_cons_of_mem _ h, hr⟩
      · rintro (h | ⟨h, hr⟩)
        · exact Or.inl (Or.inr h)
        · rcases List.mem_cons.1 h with rfl | h
          · exact Or.inl (Or.inl rfl)
          · exact Or.inr ⟨h, hr⟩
    · rw [ih]
      constructor
      · rintro (h | ⟨h, hr⟩)
        · exact Or.inl h
        · exact Or.inr ⟨List.mem_cons_of_mem _ h, hr⟩
      · rintro (h | ⟨h, h4, ha, hn, hf⟩)
        · exact Or.inl h
        · rcases List.mem_cons.1 h with rfl | h
          · exact absurd hf h3
          · exact Or.inr ⟨h, h4, ha, hn, hf⟩

theorem mem_buildFinalSet (names freqWords : Finset String) (order : List String) (w : String) :
    w ∈ buildFinalSet names freqWords order ↔
      w ∈ order ∧ 4 ≤ len w ∧ alphaMatch w = true ∧ w ∉ names ∧ w ∈ freqWords := by
  unfold buildFinalSet
  rw [mem_filterLoop]
  simp

theorem IsIteration.mem_iff {s : Finset String} {order : List String}
    (h : IsIteration s order) (w : String) : w ∈ order ↔ w ∈ s := by
  rw [← h.2, List.mem_toFinset]

theorem IsIteration.perm {s : Finset String} {o₁ o₂ : List String}
    (h₁ : IsIteration s o₁) (h₂ : IsIteration s o₂) : o₁.Perm o₂ :=
  (List.perm_ext_iff_of_nodup h₁.1 h₂.1).2 (fun w => by rw [h₁.mem_iff, h₂.mem_iff])

theorem exists_isIteration (s : Finset String) : ∃ order, IsIteration s order :=
  ⟨s.toList, s.nodup_toList, s.toList_toFinset⟩

/-! ## Lemmas on the bucket map -/

theorem BucketMap.get_set (m : BucketMap) (k k' : String) (v : List String) :
    (m.set k v).get k' = if k = k' then v else m.get k' := by
  induction m with
  | nil => simp [BucketMap.set, BucketMap.get]
  | cons p rest ih =>
    obtain ⟨a, b⟩ := p
    unfold BucketMap.set
    by_cases hak : a = k
    · subst hak
      simp only [if_true]
      by_cases hk : a = k'
      · simp [BucketMap.get, hk]
      · simp [BucketMap.get, hk]
    · rw [if_neg hak]
      by_cases hk : a = k'
      · subst hk
        have : ¬ k = a := fun h => hak h.symm
        simp [BucketMap.get, this]
      · simp only [BucketMap.get, if_neg hk, ih]

theorem BucketMap.keys_set_of_mem (m : BucketMap) (k : String) (v : List String)
    (h : k ∈ m.keys) : (m.set k v).keys = m.keys := by
  induction m with
  | nil => simp [BucketMap.keys] at h
  | cons p rest ih =>
    obtain ⟨a, b⟩ := p
    unfold BucketMap.set
    by_cases hak : a = k
    · subst hak
      simp [BucketMap.keys]
    · rw [if_neg hak]
      have hk : k ∈ BucketMap.keys rest := by
        simp only [BucketMap.keys, List.map_cons, List.mem_cons] at h
        rcases h with h | h
        · exact absurd h.symm hak
        · exact h
      have := ih hk
      simp only [BucketMap.keys, List.map_cons] at this ⊢
      rw [this]

theorem bucketLoop_get (order : List String) (b : BucketMap) (t : String) :
    (bucketLoop order b).get t =
      b.get t ++ order.filter (fun w => decide (difficulty w = t ∧ t ≠ "")) := by
  induction order generalizing b with
  | nil => simp [bucketLoop]
  | cons x rest ih =>
    unfold bucketLoop
    simp only []
    split_ifs with h
    · rw [ih, BucketMap.get_set]
      by_cases hx : difficulty x = t
      · have ht : t ≠ "" := hx ▸ h
        simp [hx, ht, List.filter_cons]
      · simp [hx, List.filter_cons]
    · rw [ih]
      have hx : difficulty x = "" := by
        by_contra hc
        exact h hc
      by_cases ht : t = ""
      · simp [ht, List.filter_cons]
      · have : ¬ difficulty x = t := by rw [hx]; exact fun hh => ht hh.symm
        simp [this, List.filter_cons]

theorem bucketLoop_keys (order : List String) (b : BucketMap)
    (hb : ∀ t, t = "easy" ∨ t = "medium" ∨ t = "hard" → t ∈ b.keys) :
    (bucketLoop order b).keys = b.keys := by
  induction order generalizing b with
  | nil => simp [bucketLoop]
  | cons x rest ih =>
    unfold bucketLoop
    simp only []
    split_ifs with h
    · have hk : difficulty x ∈ b.keys := by
        rcases tier_cases x with h1 | h1 | h1 | h1
        · exact hb _ (Or.inl h1)
        · exact hb _ (Or.inr (Or.inl h1))
        · exact hb _ (Or.inr (Or.inr h1))
        · exact absurd h1 h
      have hs := BucketMap.keys_set_of_mem b (difficulty x) (b.get (difficulty x) ++ [x]) hk
      rw [ih _ (by rw [hs]; exact hb), hs]
    · exact ih b hb

theorem fillBuckets_get (order : List String) (t : String) :
    (fillBuckets order).get t = order.filter (fun w => decide (difficulty w = t ∧ t ≠ "")) := by
  unfold fillBuckets
  rw [bucketLoop_get]
  have : initBuckets.get t = [] := by
    unfold initBuckets
    simp only [BucketMap.get]
    split_ifs <;> rfl
  rw [this, List.nil_append]

theorem fillBuckets_keys (order : List String) :
    (fillBuckets order).keys = ["easy", "medium", "hard"] := by
  unfold fillBuckets
  rw [bucketLoop_keys]
  · rfl
  · intro t ht
    rcases ht with rfl | rfl | rfl <;> decide

theorem mem_fillBuckets (order : List String) (t w : String) :
    w ∈ (fillBuckets order).get t ↔ w ∈ order ∧ difficulty w = t ∧ t ≠ "" := by
  rw [fillBuckets_get, List.mem_filter]
  simp

theorem buildFinalSet_eq_of_iteration (nouns names freqWords : Finset String)
    (o₁ o₂ : List String) (h₁ : IsIteration nouns o₁) (h₂ : IsIteration nouns o₂) :
    buildFinalSet names freqWords o₁ = buildFinalSet names freqWords o₂ := by
  ext w
  rw [mem_buildFinalSet, mem_buildFinalSet, h₁.mem_iff, h₂.mem_iff]

theorem bucketRun_exists (nouns names freqWords : Finset String) :
    ∃ b, BucketRun nouns names freqWords b := by
  obtain ⟨o₁, h₁⟩ := exists_isIteration nouns
  obtain ⟨o₂, h₂⟩ := exists_isIteration (buildFinalSet names freqWords o₁)
  exact ⟨fillBuckets o₂, o₁, o₂, h₁, h₂, rfl⟩

theorem BucketRun.mem_get {nouns names freqWords : Finset String} {b : BucketMap}
    (h : BucketRun nouns names freqWords b) (t w : String) :
    w ∈ b.get t ↔
      (w ∈ nouns ∧ 4 ≤ len w ∧ alphaMatch w = true ∧ w ∉ names ∧ w ∈ freqWords) ∧
        difficulty w = t ∧ t ≠ "" := by
  obtain ⟨o₁, o₂, h₁, h₂, rfl⟩ := h
  rw [mem_fillBuckets, h₂.mem_iff, mem_buildFinalSet, h₁.mem_iff]

theorem BucketRun.nodup_get {nouns names freqWords : Finset String} {b : BucketMap}
    (h : BucketRun nouns names freqWords b) (t : String) : (b.get t).Nodup := by
  obtain ⟨o₁, o₂, h₁, h₂, rfl⟩ := h
  rw [fillBuckets_get]
  exact h₂.1.filter _

theorem isLowerAZ_mem_letters (c : Char) (h : isLowerAZ c = true) :
    c ∈ "abcdefghijklmnopqrstuvwxyz".data := by
  unfold isLowerAZ at h
  simp only [Bool.and_eq_true, decide_eq_true_eq] at h
  obtain ⟨h1, h2⟩ := h
  have hc : c = Char.ofNat c.toNat := (Char.ofNat_toNat c).symm
  generalize c.toNat = n at h1 h2 hc
  subst hc
  interval_cases n <;> decide

/-! ## The claims on difficulty and on the filter-and-bucket step -/

/-- C4: for every string, difficulty is "easy" exactly for length 4 or 5, "medium" exactly
for length 6, "hard" exactly for length 7 or 8, and the empty tier for every other length
(below 4 or above 8); the length is Go's `len`, the number of bytes. -/
theorem difficulty_by_length (w : String) :
    (difficulty w = "easy" ↔ len w = 4 ∨ len w = 5) ∧
    (difficulty w = "medium" ↔ len w = 6) ∧
    (difficulty w = "hard" ↔ len w = 7 ∨ len w = 8) ∧
    (difficulty w = "" ↔ len w < 4 ∨ 8 < len w) := by
  have e1 : ("easy" : String) ≠ "medium" := by decide
  have e2 : ("easy" : String) ≠ "hard" := by decide
  have e3 : ("easy" : String) ≠ "" := by decide
  have e4 : ("medium" : String) ≠ "hard" := by decide
  have e5 : ("medium" : String) ≠ "" := by decide
  have e6 : ("hard" : String) ≠ "" := by decide
  unfold difficulty
  simp only []
  split_ifs with h1 h2 h3
  · refine ⟨⟨fun _ => by omega, fun _ => rfl⟩, ⟨fun h => absurd h e1, fun h => by omega⟩,
      ⟨fun h => absurd h e2, fun h => by omega⟩, ⟨fun h => absurd h e3, fun h => by omega⟩⟩
  · refine ⟨⟨fun h => absurd h.symm e1, fun h => by omega⟩, ⟨fun _ => h2, fun _ => rfl⟩,
      ⟨fun h => absurd h e4, fun h => by omega⟩, ⟨fun h => absurd h e5, fun h => by omega⟩⟩
  · refine ⟨⟨fun h => absurd h.symm e2, fun h => by omega⟩,
      ⟨fun h => absurd h.symm e4, fun h => by omega⟩,
      ⟨fun _ => by omega, fun _ => rfl⟩, ⟨fun h => absurd h e6, fun h => by omega⟩⟩
  · refine ⟨⟨fun h => absurd h.symm e3, fun h => by omega⟩,
      ⟨fun h => absurd h.symm e5, fun h => by omega⟩,
      ⟨fun h => absurd h.symm e6, fun h => by omega⟩, ⟨fun _ => by omega, fun _ => rfl⟩⟩

/-- C1: in every run of the filter-and-bucket step, a word of nouns with length 4 to 8
that matches the pattern, is not a name and is in the frequency set lies in exactly one
bucket, once: the bucket of one of the three tiers that difficulty names for it, and that
tier is the same for every string of the same length. -/
theorem accepted_word_in_exactly_one_bucket (nouns names freqWords : Finset String)
    (b : BucketMap) (hrun : BucketRun nouns names freqWords b) (w : String)
    (hw : w ∈ nouns) (h4 : 4 ≤ len w) (h8 : len w ≤ 8) (ha : alphaMatch w = true)
    (hn : w ∉ names) (hf : w ∈ freqWords) :
    (difficulty w = "easy" ∨ difficulty w = "medium" ∨ difficulty w = "hard") ∧
    (b.get (difficulty w)).count w = 1 ∧
    (∀ t, w ∈ b.get t → t = difficulty w) ∧
    (∀ w', len w' = len w → difficulty w' = difficulty w) := by
  have hne : difficulty w ≠ "" := (difficulty_ne_empty_iff w).2 ⟨h4, h8⟩
  have hmem : w ∈ b.get (difficulty w) :=
    (hrun.mem_get _ w).2 ⟨⟨hw, h4, ha, hn, hf⟩, rfl, hne⟩
  refine ⟨?_, ?_, ?_, ?_⟩
  · rcases tier_cases w with h | h | h | h
    · exact Or.inl h
    · exact Or.inr (Or.inl h)
    · exact Or.inr (Or.inr h)
    · exact absurd h hne
  · exact List.count_eq_one_of_mem (hrun.nodup_get _) hmem
  · intro t ht
    exact ((hrun.mem_get t w).1 ht).2.1.symm
  · intro w' hlen
    exact difficulty_congr_len w w' hlen

/-- C2: in every run of the filter-and-bucket step, a word found in any bucket is a member
of nouns, a member of the frequency set and no member of names; so no word of names is in
any bucket, whatever nouns and the frequency set hold. -/
theorem bucket_words_in_nouns_and_frequency_not_names (nouns names freqWords : Finset String)
    (b : BucketMap) (hrun : BucketRun nouns names freqWords b) :
    (∀ t w, w ∈ b.get t → w ∈ nouns ∧ w ∈ freqWords ∧ w ∉ names) ∧
    (∀ w, w ∈ names → ∀ t, w ∉ b.get t) := by
  constructor
  · intro t w hw
    obtain ⟨⟨h1, _, _, h4, h5⟩, _⟩ := (hrun.mem_get t w).1 hw
    exact ⟨h1, h5, h4⟩
  · intro w hw t hmem
    exact ((hrun.mem_get t w).1 hmem).1.2.2.2.1 hw

/-- C3: in every run of the filter-and-bucket step, every word of every bucket matches the
pattern, that is, it is not empty and each of its characters is one of the letters a to z,
and its length is between 4 and 8, in bytes and in characters alike. -/
theorem bucket_words_lowercase_length_4_to_8 (nouns names freqWords : Finset String)
    (b : BucketMap) (hrun : BucketRun nouns names freqWords b) (t w : String)
    (hw : w ∈ b.get t) :
    alphaMatch w = true ∧ w.data ≠ [] ∧
    (∀ c ∈ w.data, c ∈ "abcdefghijklmnopqrstuvwxyz".data) ∧
    4 ≤ len w ∧ len w ≤ 8 ∧ 4 ≤ w.length ∧ w.length ≤ 8 := by
  obtain ⟨⟨_, h4, ha, _, _⟩, hd, ht⟩ := (hrun.mem_get t w).1 hw
  have h8 : len w ≤ 8 := ((difficulty_ne_empty_iff w).1 (hd ▸ ht)).2
  have hl := len_eq_length_of_alphaMatch w ha
  obtain ⟨hne, hall⟩ := (alphaMatch_iff w).1 ha
  exact ⟨ha, hne, fun c hc => isLowerAZ_mem_letters c (hall c hc), h4, h8,
    hl ▸ h4, hl ▸ h8⟩

/-- C10: two runs of the filter-and-bucket step on the same three sets, whatever the
visiting orders of the two map loops in each, fill every tier with the same words: the two
lists of a tier are permutations of each other and neither has a duplicate. -/
theorem buckets_same_words_across_runs (nouns names freqWords : Finset String)
    (b₁ b₂ : BucketMap) (h₁ : BucketRun nouns names freqWords b₁)
    (h₂ : BucketRun nouns names freqWords b₂) (t : String) :
    (b₁.get t).Perm (b₂.get t) ∧ (b₁.get t).Nodup ∧ (b₂.get t).Nodup := by
  refine ⟨?_, h₁.nodup_get t, h₂.nodup_get t⟩
  exact (List.perm_ext_iff_of_nodup (h₁.nodup_get t) (h₂.nodup_get t)).2
    (fun w => by rw [h₁.mem_get, h₂.mem_get])

/-! ## The example scenario -/

theorem example_bucketRun :
    BucketRun exampleNouns exampleNames exampleFrequency (fillBuckets ["umbrella", "piano"]) :=
  ⟨["xz", "umbrella", "dog", "cat", "piano"], ["umbrella", "piano"], by decide, by decide, rfl⟩

theorem example_bucketRun_other :
    BucketRun exampleNouns exampleNames exampleFrequency (fillBuckets ["piano", "umbrella"]) :=
  ⟨["cat", "dog", "piano", "umbrella", "xz"], ["piano", "umbrella"], by decide, by decide, rfl⟩

/-- C5, as stated, fails: in the example scenario "piano" has five letters, so a run puts
it into the easy bucket and leaves medium empty, and no run yields medium = ["piano"]. -/
theorem example_scenario_piano_not_medium :
    len "piano" = 5 ∧ difficulty "piano" = "easy" ∧
    BucketRun exampleNouns exampleNames exampleFrequency (fillBuckets ["piano", "umbrella"]) ∧
    (fillBuckets ["piano", "umbrella"]).get "easy" = ["piano"] ∧
    (fillBuckets ["piano", "umbrella"]).get "medium" = [] ∧
    ¬ ∃ b, BucketRun exampleNouns exampleNames exampleFrequency b ∧
      b.get "medium" = ["piano"] := by
  refine ⟨by decide, by decide, example_bucketRun_other, by decide, by decide, ?_⟩
  rintro ⟨b, hrun, hmed⟩
  have hmem : "piano" ∈ b.get "medium" := by rw [hmed]; exact List.mem_singleton.2 rfl
  have hd := ((hrun.mem_get "medium" "piano").1 hmem).2.1
  revert hd
  decide

/-- C5, amended: in the example scenario every run of the filter-and-bucket step accepts
exactly "piano" and "umbrella" and produces easy = ["piano"], medium = [] and
hard = ["umbrella"]. -/
theorem example_scenario_buckets (nounOrder finalOrder : List String)
    (h₁ : IsIteration exampleNouns nounOrder)
    (h₂ : IsIteration (buildFinalSet exampleNames exampleFrequency nounOrder) finalOrder) :
    buildFinalSet exampleNames exampleFrequency nounOrder = {"piano", "umbrella"} ∧
    (fillBuckets finalOrder).get "easy" = ["piano"] ∧
    (fillBuckets finalOrder).get "medium" = [] ∧
    (fillBuckets finalOrder).get "hard" = ["umbrella"] := by
  have hset : buildFinalSet exampleNames exampleFrequency nounOrder = {"piano", "umbrella"} := by
    rw [buildFinalSet_eq_of_iteration exampleNouns exampleNames exampleFrequency nounOrder
      ["cat", "dog", "piano", "umbrella", "xz"] h₁ (by decide)]
    decide
  rw [hset] at h₂
  have hperm : finalOrder.Perm ["piano", "umbrella"] := h₂.perm (by decide)
  refine ⟨hset, ?_, ?_, ?_⟩
  · rw [fillBuckets_get]
    have h := hperm.filter (fun w => decide (difficulty w = "easy" ∧ ("easy" : String) ≠ ""))
    have e : (["piano", "umbrella"] : List String).filter
        (fun w => decide (difficulty w = "easy" ∧ ("easy" : String) ≠ "")) = ["piano"] := by
      decide
    rw [e] at h
    exact List.perm_singleton.1 h
  · rw [fillBuckets_get]
    have h := hperm.filter (fun w => decide (difficulty w = "medium" ∧ ("medium" : String) ≠ ""))
    have e : (["piano", "umbrella"] : List String).filter
        (fun w => decide (difficulty w = "medium" ∧ ("medium" : String) ≠ "")) = [] := by
      decide
    rw [e] at h
    exact List.perm_nil.1 h
  · rw [fillBuckets_get]
    have h := hperm.filter (fun w => decide (difficulty w = "hard" ∧ ("hard" : String) ≠ ""))
    have e : (["piano", "umbrella"] : List String).filter
        (fun w => decide (difficulty w = "hard" ∧ ("hard" : String) ≠ "")) = ["umbrella"] := by
      decide
    rw [e] at h
    exact List.perm_singleton.1 h

/-- Witness of C5, amended: the visiting orders xz, umbrella, dog, cat, piano and
umbrella, piano. -/
theorem example_scenario_buckets_witness :
    IsIteration exampleNouns ["xz", "umbrella", "dog", "cat", "piano"] ∧
    IsIteration (buildFinalSet exampleNames exampleFrequency
      ["xz", "umbrella", "dog", "cat", "piano"]) ["umbrella", "piano"] ∧
    buildFinalSet exampleNames exampleFrequency ["xz", "umbrella", "dog", "cat", "piano"]
      = {"piano", "umbrella"} ∧
    (fillBuckets ["umbrella", "piano"]).get "easy" = ["piano"] ∧
    (fillBuckets ["umbrella", "piano"]).get "medium" = [] ∧
    (fillBuckets ["umbrella", "piano"]).get "hard" = ["umbrella"] :=
  ⟨by decide, by decide,
    example_scenario_buckets ["xz", "umbrella", "dog", "cat", "piano"] ["umbrella", "piano"]
      (by decide) (by decide)⟩

/-- Witness of C1: "piano" in a run of the example scenario. -/
theorem accepted_word_in_exactly_one_bucket_witness :
    BucketRun exampleNouns exampleNames exampleFrequency (fillBuckets ["umbrella", "piano"]) ∧
    ("piano" ∈ exampleNouns ∧ 4 ≤ len "piano" ∧ len "piano" ≤ 8 ∧ alphaMatch "piano" = true ∧
      "piano" ∉ exampleNames ∧ "piano" ∈ exampleFrequency) ∧
    (difficulty "piano" = "easy" ∨ difficulty "piano" = "medium" ∨
      difficulty "piano" = "hard") ∧
    ((fillBuckets ["umbrella", "piano"]).get (difficulty "piano")).count "piano" = 1 ∧
    (∀ t, "piano" ∈ (fillBuckets ["umbrella", "piano"]).get t → t = difficulty "piano") ∧
    (∀ w', len w' = len "piano" → difficulty w' = difficulty "piano") :=
  ⟨example_bucketRun, by decide,
    accepted_word_in_exactly_one_bucket exampleNouns exampleNames exampleFrequency
      (fillBuckets ["umbrella", "piano"]) example_bucketRun "piano"
      (by decide) (by decide) (by decide) (by decide) (by decide) (by decide)⟩

/-- Witness of C2: a run of the example scenario. -/
theorem bucket_words_in_nouns_and_frequency_not_names_witness :
    BucketRun exampleNouns exampleNames exampleFrequency (fillBuckets ["umbrella", "piano"]) ∧
    (∀ t w, w ∈ (fillBuckets ["umbrella", "piano"]).get t →
      w ∈ exampleNouns ∧ w ∈ exampleFrequency ∧ w ∉ exampleNames) ∧
    (∀ w, w ∈ exampleNames → ∀ t, w ∉ (fillBuckets ["umbrella", "piano"]).get t) :=
  ⟨example_bucketRun,
    bucket_words_in_nouns_and_frequency_not_names exampleNouns exampleNames exampleFrequency
      (fillBuckets ["umbrella", "piano"]) example_bucketRun⟩

/-- Witness of C3: "umbrella" in the hard bucket of a run of the example scenario. -/
theorem bucket_words_lowercase_length_4_to_8_witness :
    BucketRun exampleNouns exampleNames exampleFrequency (fillBuckets ["umbrella", "piano"]) ∧
    "umbrella" ∈ (fillBuckets ["umbrella", "piano"]).get "hard" ∧
    alphaMatch "umbrella" = true ∧ "umbrella".data ≠ [] ∧
    (∀ c ∈ "umbrella".data, c ∈ "abcdefghijklmnopqrstuvwxyz".data) ∧
    4 ≤ len "umbrella" ∧ len "umbrella" ≤ 8 ∧ 4 ≤ "umbrella".length ∧
    "umbrella".length ≤ 8 :=
  ⟨example_bucketRun, by decide,
    bucket_words_lowercase_length_4_to_8 exampleNouns exampleNames exampleFrequency
      (fillBuckets ["umbrella", "piano"]) example_bucketRun "hard" "umbrella" (by decide)⟩

/-- Witness of C10: the set of "piano" and "world" as nouns and as frequency set, no
names, visited in the two possible orders: the easy bucket is piano, world in one run and
world, piano in the other. -/
theorem buckets_same_words_across_runs_witness :
    BucketRun twoEasyWords ∅ twoEasyWords (fillBuckets ["piano", "world"]) ∧
    BucketRun twoEasyWords ∅ twoEasyWords (fillBuckets ["world", "piano"]) ∧
    (fillBuckets ["piano", "world"]).get "easy" = ["piano", "world"] ∧
    (fillBuckets ["world", "piano"]).get "easy" = ["world", "piano"] ∧
    ((fillBuckets ["piano", "world"]).get "easy").Perm
      ((fillBuckets ["world", "piano"]).get "easy") ∧
    ((fillBuckets ["piano", "world"]).get "easy").Nodup ∧
    ((fillBuckets ["world", "piano"]).get "easy").Nodup :=
  ⟨⟨["piano", "world"], ["piano", "world"], by decide, by decide, rfl⟩,
    ⟨["world", "piano"], ["world", "piano"], by decide, by decide, rfl⟩,
    by decide, by decide,
    buckets_same_words_across_runs twoEasyWords ∅ twoEasyWords
      (fillBuckets ["piano", "world"]) (fillBuckets ["world", "piano"])
      ⟨["piano", "world"], ["piano", "world"], by decide, by decide, rfl⟩
      ⟨["world", "piano"], ["world", "piano"], by decide, by decide, rfl⟩ "easy"⟩

/-! ## Lemmas on loadSetFromURLs -/

theorem mem_insertAll (list : List String) (set : Finset String) (w : String) :
    w ∈ insertAll list set ↔ w ∈ set ∨ w ∈ list := by
  induction list generalizing set with
  | nil => simp [insertAll]
  | cons x rest ih =>
    unfold insertAll
    rw [ih, Finset.mem_insert, List.mem_cons]
    tauto

theorem mem_loadLoop (fetch : String → Except FetchError (List String)) (urls : List String)
    (set : Finset String) (w : String) :
    w ∈ loadLoop fetch urls set ↔ w ∈ set ∨ w ∈ specSuccessfulLines fetch urls := by
  induction urls generalizing set with
  | nil => simp [loadLoop, specSuccessfulLines]
  | cons url rest ih =>
    unfold loadLoop specSuccessfulLines
    cases h : fetch url with
    | error e => simp only [ih]
    | ok list =>
      simp only [ih, mem_insertAll, List.mem_append]
      tauto

theorem mem_specSuccessfulLines (fetch : String → Except FetchError (List String))
    (urls : List String) (w : String) :
    w ∈ specSuccessfulLines fetch urls ↔
      ∃ url ∈ urls, ∃ list, fetch url = .ok list ∧ w ∈ list := by
  induction urls with
  | nil => simp [specSuccessfulLines]
  | cons url rest ih =>
    unfold specSuccessfulLines
    cases h : fetch url with
    | error e =>
      simp only [ih, List.mem_cons]
      constructor
      · rintro ⟨u, hu, list, hl, hw⟩
        exact ⟨u, Or.inr hu, list, hl, hw⟩
      · rintro ⟨u, hu | hu, list, hl, hw⟩
        · subst hu
          rw [h] at hl
          cases hl
        · exact ⟨u, hu, list, hl, hw⟩
    | ok l =>
      simp only [List.mem_append, ih, List.mem_cons]
      constructor
      · rintro (hw | ⟨u, hu, list, hl, hw⟩)
        · exact ⟨url, Or.inl rfl, l, h, hw⟩
        · exact ⟨u, Or.inr hu, list, hl, hw⟩
      · rintro ⟨u, hu | hu, list, hl, hw⟩
        · subst hu
          rw [h] at hl
          cases hl
          exact Or.inl hw
        · exact Or.inr ⟨u, hu, list, hl, hw⟩

/-- C7: for every list of locations and every outcome of the fetches, loadSetFromURLs
returns the set of the lines of the locations whose fetch succeeded: a word is in the
result exactly when it is a line of some location of the list whose fetch succeeded (so a
failed location adds nothing and stops nothing, and repeated lines are one member); the
result is the empty set exactly when no fetch delivered a line, and so it is the empty
set, not an error, when every fetch fails. -/
theorem loadSetFromURLs_is_set_of_successful_lines
    (fetch : String → Except FetchError (List String)) (urls : List String) :
    loadSetFromURLs fetch urls = (specSuccessfulLines fetch urls).toFinset ∧
    (∀ w, w ∈ loadSetFromURLs fetch urls ↔
      ∃ url ∈ urls, ∃ list, fetch url = .ok list ∧ w ∈ list) ∧
    (loadSetFromURLs fetch urls = ∅ ↔
      ∀ url ∈ urls, ∀ list, fetch url = .ok list → list = []) ∧
    ((∀ url ∈ urls, ∃ e, fetch url = .error e) → loadSetFromURLs fetch urls = ∅) := by
  have hmem : ∀ w, w ∈ loadSetFromURLs fetch urls ↔ w ∈ specSuccessfulLines fetch urls := by
    intro w
    unfold loadSetFromURLs
    rw [mem_loadLoop]
    simp
  have hempty : loadSetFromURLs fetch urls = ∅ ↔
      ∀ url ∈ urls, ∀ list, fetch url = .ok list → list = [] := by
    rw [Finset.eq_empty_iff_forall_not_mem]
    constructor
    · intro h url hu list hl
      rw [List.eq_nil_iff_forall_not_mem]
      intro w hw
      exact h w ((hmem w).2 ((mem_specSuccessfulLines fetch urls w).2 ⟨url, hu, list, hl, hw⟩))
    · intro h w hw
      obtain ⟨url, hu, list, hl, hwl⟩ :=
        (mem_specSuccessfulLines fetch urls w).1 ((hmem w).1 hw)
      rw [h url hu list hl] at hwl
      exact absurd hwl (List.not_mem_nil w)
  refine ⟨?_, ?_, hempty, ?_⟩
  · ext w
    rw [hmem, List.mem_toFinset]
  · intro w
    rw [hmem, mem_specSuccessfulLines]
  · intro hfail
    refine hempty.2 (fun url hu list hl => ?_)
    obtain ⟨e, he⟩ := hfail url hu
    rw [he] at hl
    cases hl

/-- Witness of C7: three locations of which the second fails, with repeated lines within
and across the two others; and two locations that both fail. -/
theorem loadSetFromURLs_is_set_of_successful_lines_witness :
    loadSetFromURLs exampleFetch ["a", "b", "c"] = {"cat", "a", "c"} ∧
    (∀ url ∈ ["a", "b"], ∃ e, failingFetch url = .error e) ∧
    loadSetFromURLs failingFetch ["a", "b"] = ∅ :=
  ⟨by decide, fun _ _ => ⟨.transport, rfl⟩,
    (loadSetFromURLs_is_set_of_successful_lines failingFetch ["a", "b"]).2.2.2
      (fun _ _ => ⟨.transport, rfl⟩)⟩

/-! ## Lemmas on downloadList -/

theorem scanLoop_eq (caseTable : Char → Char) (tokens : List (List Char)) (words : List String) :
    scanLoop caseTable tokens words = words ++ specNormalize caseTable tokens := by
  induction tokens generalizing words with
  | nil => simp [scanLoop, specNormalize]
  | cons text rest ih =>
    unfold scanLoop
    simp only []
    split_ifs with h
    · rw [ih]
      simp [specNormalize, List.filter_cons, h]
    · rw [ih]
      simp [specNormalize, List.filter_cons, h]

theorem specLines_single (line : List Char) (h : ∀ c ∈ line, c ≠ Char.ofNat 10) :
    specLines line = [line] := by
  unfold specLines List.splitOn
  exact List.splitOnP_eq_single _ _ (fun c hc => by simpa using h c hc)

theorem specLines_append_newline (line rest : List Char) (h : ∀ c ∈ line, c ≠ Char.ofNat 10) :
    specLines (line ++ Char.ofNat 10 :: rest) = line :: specLines rest := by
  unfold specLines List.splitOn
  exact List.splitOnP_first _ _ (fun c hc => by simpa using h c hc) _ (by simp) _

theorem trimSpace_dropCR (line : List Char) :
    trimSpace ⟨dropCR line⟩ = trimSpace ⟨line⟩ := by
  unfold dropCR
  split_ifs with h
  · have hl : line = line.dropLast ++ [Char.ofNat 13] :=
      (List.dropLast_append_getLast? _ h).symm
    have hsp : isSpace (Char.ofNat 13) = true := by decide
    unfold trimSpace
    simp only []
    congr 1
    conv_rhs => rw [hl]
    rw [List.dropWhile_append]
    split_ifs with he
    · have hnil : List.dropWhile isSpace line.dropLast = [] := List.isEmpty_iff.1 he
      rw [hnil]
      simp [List.dropWhile, hsp]
    · rw [List.rdropWhile_concat_pos _ _ _ hsp]
  · rfl

theorem specNormalize_cons (caseTable : Char → Char) (line : List Char)
    (lines : List (List Char)) :
    specNormalize caseTable (line :: lines) =
      specNormalize caseTable [line] ++ specNormalize caseTable lines := by
  unfold specNormalize
  rw [← List.filter_append, ← List.map_append]
  rfl

theorem specNormalize_dropCR (caseTable : Char → Char) (line : List Char) :
    specNormalize caseTable [dropCR line] = specNormalize caseTable [line] := by
  unfold specNormalize
  simp only [List.map_cons, List.map_nil, trimSpace_dropCR]

theorem specNormalize_empty_line (caseTable : Char → Char) :
    specNormalize caseTable [[]] = [] := by
  have h : toLower caseTable (trimSpace ⟨[]⟩) = "" := rfl
  unfold specNormalize
  simp only [List.map_cons, List.map_nil, h]
  rfl

theorem scanTokens_eq_specLines (caseTable : Char → Char) (body cur : List Char)
    (hcur : ∀ c ∈ cur, c ≠ Char.ofNat 10)
    (hshort : ∀ line ∈ specLines (cur ++ body), byteLen line < maxScanTokenSize) :
    specNormalize caseTable (scanTokens body cur) =
      specNormalize caseTable (specLines (cur ++ body)) := by
  induction body generalizing cur with
  | nil =>
    rw [List.append_nil] at hshort ⊢
    rw [specLines_single cur hcur] at hshort ⊢
    unfold scanTokens
    split_ifs with h1 h2
    · rw [h1, specNormalize_empty_line]
      rfl
    · exact specNormalize_dropCR caseTable cur
    · exact absurd (hshort cur (List.mem_singleton.2 rfl)) h2
  | cons c rest ih =>
    unfold scanTokens
    split_ifs with h1 h2
    · subst h1
      rw [specLines_append_newline cur rest hcur] at hshort ⊢
      rw [specNormalize_cons, specNormalize_cons caseTable cur, specNormalize_dropCR]
      have := ih [] (fun c hc => absurd hc (List.not_mem_nil c))
        (fun line hl => hshort line (List.mem_cons_of_mem _ hl))
      rw [this, List.nil_append]
    · subst h1
      rw [specLines_append_newline cur rest hcur] at hshort
      exact absurd (hshort cur (List.mem_cons_self _ _)) h2
    · have e : cur ++ c :: rest = (cur ++ [c]) ++ rest := by simp
      rw [e] at hshort ⊢
      refine ih (cur ++ [c]) ?_ hshort
      intro d hd
      rcases List.mem_append.1 hd with hd | hd
      · exact hcur d hd
      · rw [List.mem_singleton.1 hd]; exact h1

theorem downloadList_ok_of_200 (caseTable : Char → Char) (httpGet : String → HttpResult)
    (url body : String) (h : httpGet url = .response 200 body) :
    downloadList caseTable httpGet url =
      .ok (specNormalize caseTable (scanTokens body.data [])) := by
  unfold downloadList
  rw [h]
  simp only [ne_eq, not_true_eq_false, if_false, scanLoop_eq, List.nil_append]

theorem downloadList_ok_of_short_lines (caseTable : Char → Char)
    (httpGet : String → HttpResult) (url body : String)
    (h : httpGet url = .response 200 body)
    (hshort : ∀ line ∈ specLines body.data, byteLen line < maxScanTokenSize) :
    downloadList caseTable httpGet url =
      .ok (specNormalize caseTable (specLines body.data)) := by
  rw [downloadList_ok_of_200 caseTable httpGet url body h]
  congr 1
  exact scanTokens_eq_specLines caseTable body.data []
    (fun c hc => absurd hc (List.not_mem_nil c)) hshort

/-! ## Lemmas on the normalised words -/

theorem ascii_lower_not_space (c : Char) (h : isUpperAZ c = true) :
    isSpace (Char.ofNat (c.toNat + 32)) = false ∧
      isUpperAZ (Char.ofNat (c.toNat + 32)) = false := by
  unfold isUpperAZ at h
  simp only [Bool.and_eq_true, decide_eq_true_eq] at h
  obtain ⟨h1, h2⟩ := h
  generalize c.toNat = n at h1 h2
  interval_cases n <;> decide

theorem isSpace_toLowerRune (caseTable : Char → Char)
    (hT : ∀ c, isSpace (caseTable c) = true → isSpace c = true) (c : Char)
    (h : isSpace c = false) : isSpace (toLowerRune caseTable c) = false := by
  unfold toLowerRune
  split_ifs with h1 h2
  · exact (ascii_lower_not_space c h2).1
  · exact h
  · cases hs : isSpace (caseTable c) with
    | false => rfl
    | true => rw [hT c hs] at h; exact Bool.noConfusion h

theorem isUpperAZ_toLowerRune (caseTable : Char → Char)
    (hU : ∀ c, isUpperAZ (caseTable c) = false) (c : Char) :
    isUpperAZ (toLowerRune caseTable c) = false := by
  unfold toLowerRune
  split_ifs with h1 h2
  · exact (ascii_lower_not_space c h2).2
  · simpa using h2
  · exact hU c

theorem isSpace_toLowerRune_eq (caseTable : Char → Char)
    (hT : ∀ c, 0x7F < c.toNat → isSpace (caseTable c) = isSpace c) (c : Char) :
    isSpace (toLowerRune caseTable c) = isSpace c := by
  unfold toLowerRune
  split_ifs with h1 h2
  · rw [(ascii_lower_not_space c h2).1]
    unfold isUpperAZ at h2
    simp only [Bool.and_eq_true, decide_eq_true_eq] at h2
    obtain ⟨h3, h4⟩ := h2
    have hc : c = Char.ofNat c.toNat := (Char.ofNat_toNat c).symm
    generalize c.toNat = n at h3 h4 hc
    subst hc
    interval_cases n <;> decide
  · rfl
  · exact hT c (by omega)

/-- Lower-casing and trimming commute, so "lower-cased, white-space-trimmed" names one
form: the assumption on the Unicode case table says that lower-casing a rune above ASCII
neither makes nor unmakes white space. -/
theorem trimSpace_toLower (caseTable : Char → Char)
    (hT : ∀ c, 0x7F < c.toNat → isSpace (caseTable c) = isSpace c) (s : String) :
    trimSpace (toLower caseTable s) = toLower caseTable (trimSpace s) := by
  have hcomp : isSpace ∘ toLowerRune caseTable = isSpace :=
    funext (fun c => isSpace_toLowerRune_eq caseTable hT c)
  unfold trimSpace toLower
  simp only [List.rdropWhile, List.dropWhile_map, hcomp, ← List.map_reverse]

theorem trimSpace_head (s : String) (c : Char) (h : (trimSpace s).data.head? = some c) :
    isSpace c = false := by
  unfold trimSpace at h
  simp only [] at h
  obtain ⟨r, hr⟩ := List.rdropWhile_prefix isSpace (List.dropWhile isSpace s.data)
  have hd := List.head?_dropWhile_not isSpace s.data
  cases ht : List.rdropWhile isSpace (List.dropWhile isSpace s.data) with
  | nil => rw [ht] at h; cases h
  | cons a t =>
    rw [ht] at h hr
    simp only [List.head?_cons, Option.some.injEq] at h
    subst h
    rw [← hr] at hd
    simpa using hd

theorem trimSpace_last (s : String) (c : Char) (h : (trimSpace s).data.getLast? = some c) :
    isSpace c = false := by
  unfold trimSpace at h
  simp only [] at h
  have hne : List.rdropWhile isSpace (List.dropWhile isSpace s.data) ≠ [] := by
    intro he
    rw [he] at h
    cases h
  have hl := List.rdropWhile_last_not isSpace (List.dropWhile isSpace s.data) hne
  rw [List.getLast?_eq_getLast _ hne, Option.some.injEq] at h
  rw [h] at hl
  simpa using hl

theorem mem_specNormalize (caseTable : Char → Char) (lines : List (List Char)) (w : String) :
    w ∈ specNormalize caseTable lines ↔
      (∃ line ∈ lines, toLower caseTable (trimSpace ⟨line⟩) = w) ∧ w ≠ "" := by
  unfold specNormalize
  simp [List.mem_filter]

theorem specNormalize_clean (caseTable : Char → Char)
    (hT : ∀ c, isSpace (caseTable c) = true → isSpace c = true)
    (hU : ∀ c, isUpperAZ (caseTable c) = false)
    (lines : List (List Char)) (w : String) (hw : w ∈ specNormalize caseTable lines) :
    w ≠ "" ∧ (∀ c, w.data.head? = some c → isSpace c = false) ∧
      (∀ c, w.data.getLast? = some c → isSpace c = false) ∧
      (∀ c ∈ w.data, isUpperAZ c = false) := by
  obtain ⟨⟨line, _, rfl⟩, hne⟩ := (mem_specNormalize caseTable lines w).1 hw
  refine ⟨hne, ?_, ?_, ?_⟩
  · intro c hc
    unfold toLower at hc
    simp only [List.head?_map, Option.map_eq_some'] at hc
    obtain ⟨a, ha, rfl⟩ := hc
    exact isSpace_toLowerRune caseTable hT a (trimSpace_head _ a ha)
  · intro c hc
    unfold toLower at hc
    simp only [List.getLast?_map, Option.map_eq_some'] at hc
    obtain ⟨a, ha, rfl⟩ := hc
    exact isSpace_toLowerRune caseTable hT a (trimSpace_last _ a ha)
  · intro c hc
    unfold toLower at hc
    simp only [List.mem_map] at hc
    obtain ⟨a, _, rfl⟩ := hc
    exact isUpperAZ_toLowerRune caseTable hU a

/-! ## A line longer than the scanner's buffer -/

theorem byteLen_append (l₁ l₂ : List Char) : byteLen (l₁ ++ l₂) = byteLen l₁ + byteLen l₂ := by
  induction l₁ with
  | nil => simp [byteLen]
  | cons c cs ih =>
    rw [List.cons_append, byteLen, byteLen, ih]
    omega

theorem byteLen_replicate_a (n : Nat) : byteLen (List.replicate n (Char.ofNat 97)) = n := by
  induction n with
  | zero => rfl
  | succ k ih =>
    rw [List.replicate_succ, byteLen, ih]
    have : runeLen (Char.ofNat 97) = 1 := by decide
    omega

theorem scanTokens_replicate_a (n : Nat) (rest cur : List Char) :
    scanTokens (List.replicate n (Char.ofNat 97) ++ rest) cur =
      scanTokens rest (cur ++ List.replicate n (Char.ofNat 97)) := by
  induction n generalizing cur with
  | zero => simp
  | succ k ih =>
    rw [List.replicate_succ, List.cons_append, scanTokens,
      if_neg (by decide : ¬ Char.ofNat 97 = Char.ofNat 10), ih]
    congr 1
    rw [List.append_assoc]
    rfl

theorem scanTokens_long_line (n : Nat) (hn : maxScanTokenSize ≤ n) (rest : List Char) :
    scanTokens (List.replicate n (Char.ofNat 97) ++ Char.ofNat 10 :: rest) [] = [] := by
  rw [scanTokens_replicate_a, List.nil_append, scanTokens, if_pos rfl,
    if_neg (by rw [byteLen_replicate_a]; omega)]

/-! ## The claims on downloadList -/

/-- C6, failing input: a body fetched with status 200 whose first line has 65536 letters and
whose second line is "piano".  The normalised lines of the body contain "piano", yet
downloadList returns the empty list and no error: the scanner stops at the line that does
not fit into its buffer, and the loop ends as at the end of the input. -/
theorem downloadList_drops_lines_after_long_line :
    downloadList id (fun _ => .response 200 longLineBody) "url" = .ok [] ∧
    "piano" ∈ specNormalize id (specLines longLineBody.data) := by
  constructor
  · rw [downloadList_ok_of_200 id _ "url" longLineBody rfl]
    have h : scanTokens longLineBody.data [] = [] :=
      scanTokens_long_line 65536 (by decide) _
    rw [h]
    rfl
  · have h : specLines longLineBody.data =
        List.replicate 65536 (Char.ofNat 97) :: specLines "piano\n".data :=
      specLines_append_newline _ _ (fun c hc => by
        rw [List.eq_of_mem_replicate hc]
        decide)
    rw [h, mem_specNormalize]
    refine ⟨⟨"piano".data, List.mem_cons_of_mem _ (by decide), by decide⟩, by decide⟩

/-- C8, as stated, fails: 203 is a 2xx status, and downloadList returns an error for a
response with status 203. -/
theorem downloadList_error_on_status_203 :
    ((200 : Int) ≤ 203 ∧ (203 : Int) ≤ 299) ∧
    downloadList id (fun _ => .response 203 "piano\n") "url" = .error (.badStatus 203) := by
  decide

/-- C8, amended: downloadList returns an error if and only if the transport fails or the
status of the response is not 200; for every response with status 200 it returns no error,
and it returns the normalised lines of the body when every line of the body fits into the
scanner's buffer. -/
theorem downloadList_error_iff_not_200 (caseTable : Char → Char)
    (httpGet : String → HttpResult) (url : String) :
    ((∃ e, downloadList caseTable httpGet url = .error e) ↔
      (httpGet url = .transportError ∨
        ∃ statusCode body, httpGet url = .response statusCode body ∧ statusCode ≠ 200)) ∧
    (∀ body, httpGet url = .response 200 body →
      (∃ words, downloadList caseTable httpGet url = .ok words) ∧
      ((∀ line ∈ specLines body.data, byteLen line < maxScanTokenSize) →
        downloadList caseTable httpGet url =
          .ok (specNormalize caseTable (specLines body.data)))) := by
  constructor
  · cases h : httpGet url with
    | transportError =>
      constructor
      · intro _; exact Or.inl rfl
      · intro _; exact ⟨.transport, by unfold downloadList; rw [h]⟩
    | response st body =>
      by_cases h200 : st = 200
      · subst h200
        rw [downloadList_ok_of_200 caseTable httpGet url body h]
        constructor
        · rintro ⟨e, he⟩; cases he
        · rintro (hc | ⟨st, b, hc, hne⟩)
          · cases hc
          · cases hc; exact absurd rfl hne
      · constructor
        · intro _; exact Or.inr ⟨st, body, rfl, h200⟩
        · intro _
          exact ⟨.badStatus st, by unfold downloadList; rw [h]; simp only [ne_eq, h200,
            not_false_eq_true, if_true]⟩
  · intro body h
    exact ⟨⟨_, downloadList_ok_of_200 caseTable httpGet url body h⟩,
      downloadList_ok_of_short_lines caseTable httpGet url body h⟩

/-- Witness of C8, amended: a response with status 200 and four short lines. -/
theorem downloadList_error_iff_not_200_witness :
    (∀ line ∈ specLines "cat\r\n Dog \n\nPIANO".data, byteLen line < maxScanTokenSize) ∧
    ¬ (∃ e, downloadList id (fun _ => .response 200 "cat\r\n Dog \n\nPIANO") "url" = .error e) ∧
    downloadList id (fun _ => .response 200 "cat\r\n Dog \n\nPIANO") "url" =
      .ok (specNormalize id (specLines "cat\r\n Dog \n\nPIANO".data)) ∧
    specNormalize id (specLines "cat\r\n Dog \n\nPIANO".data) = ["cat", "dog", "piano"] :=
  ⟨by decide,
    fun he => by
      rcases (downloadList_error_iff_not_200 id
        (fun _ => .response 200 "cat\r\n Dog \n\nPIANO") "url").1.1 he with h | ⟨_, _, h, hne⟩
      · cases h
      · cases h; exact hne rfl,
    ((downloadList_error_iff_not_200 id
      (fun _ => .response 200 "cat\r\n Dog \n\nPIANO") "url").2 _ rfl).2 (by decide),
    by decide⟩

/-! ## The claim on the output directory -/

theorem getLast?_append_singleton {α : Type} (l : List α) (a : α) :
    (l ++ [a]).getLast? = some a := by
  simp

theorem mem_loadEvents_download (fetch : String → Except FetchError (List String))
    (urls : List String) (url : String) (h : url ∈ urls) :
    Event.download url ∈ loadEvents fetch urls := by
  induction urls with
  | nil => cases h
  | cons u rest ih =>
    unfold loadEvents
    rcases List.mem_cons.1 h with rfl | h
    · cases fetch url <;> simp
    · cases fetch u <;> simp [ih h]

theorem mem_writeLoop (writeFile : String → List String → Bool) (buckets : BucketMap)
    (order : List String) (diff : String) (h : diff ∈ order) :
    Event.writeFile (filePath diff) (buckets.get diff)
        (writeFile (filePath diff) (buckets.get diff)) ∈ writeLoop writeFile buckets order ∧
      Event.printWritten (buckets.get diff).length (filePath diff) ∈
        writeLoop writeFile buckets order := by
  induction order with
  | nil => cases h
  | cons d rest ih =>
    unfold writeLoop
    rcases List.mem_cons.1 h with rfl | h
    · simp
    · have := ih h
      simp [this.1, this.2]

/-- C9, as stated, fails: in a world where the output directory cannot be created, main
goes on to fetch every source, attempts the three writes, reports every file as written
and the run as done, and returns; no error reaches the caller. -/
theorem main_completes_without_output_dir :
    noDirWorld.mkdirAll outputDir = false ∧ noDirWorld.RangeOk ∧
    (main noDirWorld).outcome = .completed ∧
    (main noDirWorld).trace =
      [.mkdirAll "./words/en" false,
       .download nameSource, .download freqSource,
       .download (nounSources.get ⟨0, by decide⟩),
       .download (nounSources.get ⟨1, by decide⟩),
       .printDownloadError (nounSources.get ⟨1, by decide⟩) .transport,
       .download (nounSources.get ⟨2, by decide⟩),
       .printDownloadError (nounSources.get ⟨2, by decide⟩) .transport,
       .writeFile "words/en/hard.json" ["umbrella"] false,
       .printWritten 1 "words/en/hard.json",
       .writeFile "words/en/medium.json" [] false,
       .printWritten 0 "words/en/medium.json",
       .writeFile "words/en/easy.json" ["piano"] false,
       .printWritten 1 "words/en/easy.json",
       .printDone "./words/en"] := by
  decide

theorem mem_rangeBuckets_of_rangeOk (W : World) (hrange : W.RangeOk) (diff : String)
    (hdiff : diff ∈ ["easy", "medium", "hard"]) :
    diff ∈ W.rangeBuckets (mainBuckets W) := by
  have hkeys : (mainBuckets W).keys = ["easy", "medium", "hard"] := by
    unfold mainBuckets
    exact fillBuckets_keys _
  have hperm := hrange.2.2
  rw [hkeys] at hperm
  exact hperm.mem_iff.2 hdiff

/-- C9, amended: if the output directory cannot be created, main discards the error and
goes on as if the directory had been created.  In every run whose `range` loops visit each
key of their map once: the failed call comes first, after it main does exactly what it
does in the same world with a directory that can be created, it fetches every source, for
each of the three tiers it calls `os.WriteFile` on the tier's file with the tier's words
and prints the written-count line whatever that call returned, it reports the run as done
last, and it returns; no error is surfaced. -/
theorem main_ignores_mkdirAll_failure (W : World) (hrange : W.RangeOk)
    (h : W.mkdirAll outputDir = false) :
    (main W).outcome = .completed ∧
    (main W).trace.head? = some (.mkdirAll outputDir false) ∧
    (main W).trace.tail = (main (withDirWorld W)).trace.tail ∧
    (∀ url ∈ nameSource :: freqSource :: nounSources, Event.download url ∈ (main W).trace) ∧
    (∀ diff ∈ ["easy", "medium", "hard"],
      Event.writeFile (filePath diff) ((mainBuckets W).get diff)
          (W.writeFile (filePath diff) ((mainBuckets W).get diff)) ∈ (main W).trace ∧
      Event.printWritten ((mainBuckets W).get diff).length (filePath diff) ∈
        (main W).trace) ∧
    (main W).trace.getLast? = some (.printDone outputDir) := by
  refine ⟨rfl, ?_, ?_, ?_, ?_, ?_⟩
  · unfold main
    simp only [List.singleton_append, List.cons_append, List.head?_cons, h]
  · unfold main
    simp only [List.singleton_append, List.cons_append, List.tail_cons]
    rfl
  · intro url hurl
    unfold main
    simp only [List.mem_append]
    rcases List.mem_cons.1 hurl with rfl | hurl
    · exact Or.inl (Or.inl (Or.inl (Or.inl (Or.inr
        (mem_loadEvents_download _ _ _ (List.mem_singleton.2 rfl))))))
    · rcases List.mem_cons.1 hurl with rfl | hurl
      · exact Or.inl (Or.inl (Or.inl (Or.inr
          (mem_loadEvents_download _ _ _ (List.mem_singleton.2 rfl)))))
      · exact Or.inl (Or.inl (Or.inr (mem_loadEvents_download _ _ _ hurl)))
  · intro diff hdiff
    have hvisit := mem_rangeBuckets_of_rangeOk W hrange diff hdiff
    have hw := mem_writeLoop W.writeFile (mainBuckets W) _ diff hvisit
    unfold main
    simp only [List.mem_append]
    exact ⟨Or.inl (Or.inr hw.1), Or.inl (Or.inr hw.2)⟩
  · unfold main
    exact getLast?_append_singleton _ _

/-- Witness of C9, amended: the world without output directory, in which no write
succeeds; its visiting orders are real ones. -/
theorem main_ignores_mkdirAll_failure_witness :
    noDirWorld.RangeOk ∧ noDirWorld.mkdirAll outputDir = false ∧
    (main noDirWorld).outcome = .completed ∧
    (main noDirWorld).trace.head? = some (.mkdirAll outputDir false) ∧
    (main noDirWorld).trace.tail = (main (withDirWorld noDirWorld)).trace.tail ∧
    (∀ url ∈ nameSource :: freqSource :: nounSources,
      Event.download url ∈ (main noDirWorld).trace) ∧
    (∀ diff ∈ ["easy", "medium", "hard"],
      Event.writeFile (filePath diff) ((mainBuckets noDirWorld).get diff)
          (noDirWorld.writeFile (filePath diff) ((mainBuckets noDirWorld).get diff)) ∈
        (main noDirWorld).trace ∧
      Event.printWritten ((mainBuckets noDirWorld).get diff).length (filePath diff) ∈
        (main noDirWorld).trace) ∧
    (main noDirWorld).trace.getLast? = some (.printDone outputDir) :=
  ⟨by decide, rfl, main_ignores_mkdirAll_failure noDirWorld (by decide) rfl⟩

/-! ## downloadList on bodies with short lines -/

/-- For a body fetched with status 200 in which every line fits into the scanner's buffer,
downloadList returns the normalised lines of the body, in order and with duplicates, and
each returned word is not empty, neither starts nor ends with white space and has no
letter of A to Z; the two assumptions on the Unicode case table say that lower-casing a
rune above ASCII yields neither white space (unless the rune is white space) nor a letter
of A to Z. -/
theorem downloadList_short_body_normalized (caseTable : Char → Char)
    (hT : ∀ c, isSpace (caseTable c) = true → isSpace c = true)
    (hU : ∀ c, isUpperAZ (caseTable c) = false)
    (httpGet : String → HttpResult) (url body : String)
    (h : httpGet url = .response 200 body)
    (hshort : ∀ line ∈ specLines body.data, byteLen line < maxScanTokenSize) :
    downloadList caseTable httpGet url =
      .ok (specNormalize caseTable (specLines body.data)) ∧
    ∀ w ∈ specNormalize caseTable (specLines body.data),
      w ≠ "" ∧ (∀ c, w.data.head? = some c → isSpace c = false) ∧
        (∀ c, w.data.getLast? = some c → isSpace c = false) ∧
        (∀ c ∈ w.data, isUpperAZ c = false) :=
  ⟨downloadList_ok_of_short_lines caseTable httpGet url body h hshort,
    fun w hw => specNormalize_clean caseTable hT hU _ w hw⟩

end GenerateWords
